import Mathlib

/-!
Verification of the avalanche/cascade simulation engine of this repository.

The Python sources are shallowly embedded as follows.

Python float arithmetic is modelled over the rationals: all literal
constants of the source (0.12, 0.1, 0.02, 1e-34, ...) are exactly
representable, and the structural claims under consideration (selection
cardinality, data flow, run segmentation, termination) do not depend on
rounding of float operations.  The int() conversion is truncation toward
zero (pytrunc) and round() is round-half-to-even (pyround), as in Python 3.

The global numpy random generator is modelled by an abstract random source:
a state type, a reseeding function (np.random.seed) and primitive draw
functions (np.random.rand, np.random.normal).  Every theorem below is
proved for an arbitrary random source, and concrete witnesses instantiate
it with a small linear congruential generator.  np.random.choice with
replace set to False is modelled by draw_distinct, which repeatedly removes
a drawn element from the remaining pool; this realises exactly the
documented numpy contract (a sample without replacement) while being
executable.

networkx.watts_strogatz_graph is an external library call; it is modelled
as an abstract function from the parameters (N, k, p, seed) to an edge
list, which captures exactly what the source relies on: the builder is a
deterministic function of its arguments.
-/

/-- Truncation toward zero, the behaviour of the Python int() conversion on
a float. -/
def pytrunc (q : ℚ) : ℤ :=
  if 0 ≤ q then ⌊q⌋ else -⌊-q⌋

/-- Round-half-to-even, the behaviour of the Python 3 round() builtin. -/
def pyround (q : ℚ) : ℤ :=
  let f := ⌊q⌋
  let r := q - (f : ℚ)
  if r < 1/2 then f
  else if 1/2 < r then f + 1
  else if Even f then f else f + 1

/-- Mean of a list of rationals, as computed by np.mean (division by the
length; the empty list, where np.mean would give NaN, is only ever reached
behind explicit emptiness guards in the source). -/
def pymean (xs : List ℚ) : ℚ := xs.sum / (xs.length : ℚ)

/-- Mean of a list of naturals, cast to the rationals. -/
def pymean_nat (xs : List ℕ) : ℚ := pymean (xs.map (fun x : ℕ => (x : ℚ)))

/-- Clipping to an interval, the behaviour of np.clip. -/
def pyclip (x lo hi : ℚ) : ℚ := min (max x lo) hi

/-- Abstract model of the global numpy random generator: a state, the
np.random.seed reseeding function, and the primitive scalar draws used by
the source (a uniform draw for np.random.rand and a Gaussian draw for
np.random.normal). -/
structure RandomSource where
  State : Type
  seedOf : ℕ → State
  unif : State → ℚ × State
  normal : ℚ → ℚ → State → ℚ × State

/-- Reseeding as done at the top of every sampling routine of the source:
np.random.seed(seed) replaces the generator state when seed is not None. -/
def npseed (rng : RandomSource) (seed : Option ℕ) (st : rng.State) : rng.State :=
  match seed with
  | some s => rng.seedOf s
  | none => st

/-- A vector of n uniform draws, modelling np.random.rand(n). -/
def rand_list (rng : RandomSource) : ℕ → rng.State → List ℚ × rng.State
  | 0, st => ([], st)
  | Nat.succ n, st =>
    let u := rng.unif st
    let rest := rand_list rng n u.2
    (u.1 :: rest.1, rest.2)

/-- Model of np.random.choice(pool, size=k, replace=False): draw k times,
each time removing the drawn element from the remaining pool.  The index
into the remaining pool is derived from a uniform draw and reduced modulo
the pool size, so it is in range for every random source. -/
def draw_distinct (rng : RandomSource) : ℕ → List ℕ → rng.State → List ℕ × rng.State
  | 0, _, st => ([], st)
  | Nat.succ k, pool, st =>
    if pool.isEmpty then ([], st)
    else
      let u := rng.unif st
      let idx := (pytrunc (u.1 * (pool.length : ℚ))).toNat % pool.length
      let picked := pool.getD idx 0
      let rest := draw_distinct rng k (pool.erase picked) u.2
      (picked :: rest.1, rest.2)

/-- Model of np.random.choice(n, size=k, replace=False): a sample without
replacement from the index range 0..n-1. -/
def np_choice (rng : RandomSource) (n k : ℕ) (st : rng.State) : List ℕ × rng.State :=
  draw_distinct rng k (List.range n) st

theorem getD_mem_of_lt {l : List ℕ} {i : ℕ} (h : i < l.length) : l.getD i 0 ∈ l := by
  rw [List.getD_eq_getElem _ _ h]
  exact List.getElem_mem h

theorem draw_distinct_mem (rng : RandomSource) :
    ∀ (k : ℕ) (pool : List ℕ) (st : rng.State) (x : ℕ),
      x ∈ (draw_distinct rng k pool st).1 → x ∈ pool := by
  intro k
  induction k with
  | zero => intro pool st x hx; simp [draw_distinct] at hx
  | succ k ih =>
    intro pool st x hx
    by_cases hp : pool.isEmpty
    · simp [draw_distinct, hp] at hx
    · simp only [draw_distinct, hp, Bool.false_eq_true, not_false_iff, ite_false,
        List.mem_cons] at hx
      have hlen : 0 < pool.length := by
        cases pool with
        | nil => simp [List.isEmpty] at hp
        | cons a l => simp
      rcases hx with hx | hx
      · subst hx
        exact getD_mem_of_lt (Nat.mod_lt _ hlen)
      · exact (List.erase_subset _ _) (ih _ _ _ hx)

theorem draw_distinct_nodup (rng : RandomSource) :
    ∀ (k : ℕ) (pool : List ℕ) (st : rng.State),
      pool.Nodup → (draw_distinct rng k pool st).1.Nodup := by
  intro k
  induction k with
  | zero => intro pool st _; simp [draw_distinct]
  | succ k ih =>
    intro pool st hnd
    by_cases hp : pool.isEmpty
    · simp [draw_distinct, hp]
    · simp only [draw_distinct, hp, Bool.false_eq_true, not_false_iff, ite_false,
        List.nodup_cons]
      constructor
      · intro hmem
        have hsub := draw_distinct_mem rng k _ _ _ hmem
        exact (List.Nodup.mem_erase_iff hnd).mp hsub |>.1 rfl
      · exact ih _ _ (hnd.erase _)

theorem draw_distinct_length (rng : RandomSource) :
    ∀ (k : ℕ) (pool : List ℕ) (st : rng.State),
      (draw_distinct rng k pool st).1.length = min k pool.length := by
  intro k
  induction k with
  | zero => intro pool st; simp [draw_distinct]
  | succ k ih =>
    intro pool st
    by_cases hp : pool.isEmpty
    · have : pool = [] := List.isEmpty_iff.mp hp
      subst this
      simp [draw_distinct]
    · have hlen : 0 < pool.length := by
        cases pool with
        | nil => simp [List.isEmpty] at hp
        | cons a l => simp
      have hmem : pool.getD ((pytrunc ((rng.unif st).1 * (pool.length : ℚ))).toNat % pool.length) 0 ∈ pool :=
        getD_mem_of_lt (Nat.mod_lt _ hlen)
      simp only [draw_distinct, hp, Bool.false_eq_true, not_false_iff, ite_false,
        List.length_cons, ih]
      rw [List.length_erase_of_mem hmem]
      omega

/-- One weighted undirected edge of the simulated network.  The weight
field is the mutable current weight of the source; the original field is
the immutable baseline weight stored alongside it at creation time. -/
structure Edge where
  u : ℕ
  v : ℕ
  weight : ℚ
  original : ℚ
deriving DecidableEq

/-- The simulated network: the node count of the Watts-Strogatz graph
(nodes are 0 .. n_nodes-1, as in networkx) and its weighted edge list. -/
structure Network where
  n_nodes : ℕ
  edges : List Edge
deriving DecidableEq

/-- Well-formedness of a network: every edge joins two existing nodes.
networkx graphs satisfy this by construction. -/
def NetworkWF (net : Network) : Prop :=
  ∀ e ∈ net.edges, e.u < net.n_nodes ∧ e.v < net.n_nodes

instance (net : Network) : Decidable (NetworkWF net) := by
  unfold NetworkWF
  infer_instance

/-- Abstract model of networkx.watts_strogatz_graph: an external,
deterministic function from the parameters (N, k, p, seed) to an edge
list. -/
def WSModel : Type := ℕ → ℕ → ℚ → Option ℕ → List (ℕ × ℕ)

/-- The weight-assignment loop of create_network: one Gaussian draw
N(1.0, sigma) per edge, stored as both the current and the original
weight. -/
def assign_weights (rng : RandomSource) (sigma : ℚ) :
    List (ℕ × ℕ) → rng.State → List Edge × rng.State
  | [], st => ([], st)
  | e :: es, st =>
    let w := rng.normal 1 sigma st
    let rest := assign_weights rng sigma es w.2
    ({ u := e.1, v := e.2, weight := w.1, original := w.1 } :: rest.1, rest.2)

/-- Embedding of create_network (quantum_avalanche_v2.py lines 60-71 and
quantum_avalanche_v3.py lines 167-178; the two bodies are identical, only
the defaults of N and k differ and those are explicit arguments here):
reseed the global generator when a seed is given, build the Watts-Strogatz
graph, then draw one N(1.0, 0.12) weight per edge, storing it as both the
current and the original weight. -/
def create_network (rng : RandomSource) (ws : WSModel) (N k : ℕ) (p : ℚ)
    (seed : Option ℕ) (st : rng.State) : Network × rng.State :=
  let st1 := npseed rng seed st
  let es := ws N k p seed
  let r := assign_weights rng (12/100) es st1
  ({ n_nodes := N, edges := r.1 }, r.2)

/-- Embedding of reset_network: restore every current weight to the stored
original weight. -/
def reset_network (net : Network) : Network :=
  { net with edges := net.edges.map (fun e => { e with weight := e.original }) }

/-- The neighbour scan of the BFS loop of avalanche_size: all nodes
reachable from u over an edge whose current weight exceeds the threshold
and which are not yet visited. -/
def neighbors_above (net : Network) (threshold : ℚ) (u : ℕ) (visited : List ℕ) : List ℕ :=
  net.edges.filterMap (fun e =>
    if e.u = u ∧ threshold < e.weight ∧ e.v ∉ visited then some e.v
    else if e.v = u ∧ threshold < e.weight ∧ e.u ∉ visited then some e.u
    else none)

/-- Embedding of the BFS loop of avalanche_size (quantum_avalanche_v2.py
lines 74-91, identical in quantum_avalanche_v3.py lines 181-198 and
avalanche_bias_sim.py lines 56-90).  The while loop is driven by a fuel
counter; one unit of fuel is consumed per loop iteration (and one for the
final empty-queue test), and the termination theorems below show that a
fuel budget computed from the network suffices, so the fuel is an artefact
of the embedding, not of the algorithm.  The result is the visit count
(the avalanche size) together with the final visited list. -/
def bfs_aux (net : Network) (threshold : ℚ) :
    ℕ → List ℕ → List ℕ → ℕ → Option (ℕ × List ℕ)
  | 0, _, _, _ => none
  | Nat.succ fuel, queue, visited, size =>
    match queue with
    | [] => some (size, visited)
    | u :: rest =>
      if u ∈ visited then bfs_aux net threshold fuel rest visited size
      else
        bfs_aux net threshold fuel
          (rest ++ neighbors_above net threshold u (u :: visited))
          (u :: visited) (size + 1)

/-- The fuel budget used by the executable avalanche_size wrapper: strictly
more than the largest possible number of BFS loop iterations (each visit
enqueues at most the degree of the visited node, and the total degree is at
most twice the edge count). -/
def bfs_fuel (net : Network) : ℕ := 2 * net.edges.length + net.n_nodes + 2

/-- Embedding of avalanche_size: run the BFS from the source node and
return the visit count.  The fallback 0 of the fuel-exhaustion branch is
dead code for well-formed networks (theorem avalanche_size_defined). -/
def avalanche_size (net : Network) (source : ℕ) (threshold : ℚ) : ℕ :=
  match bfs_aux net threshold (bfs_fuel net) [source] [] 0 with
  | some r => r.1
  | none => 0

/-- Embedding of run_avalanches (quantum_avalanche_v2.py lines 117-125,
quantum_avalanche_v3.py lines 220-226): reseed, choose
min(n_seeds, N) distinct seed nodes without replacement, and run one BFS
avalanche from each. -/
def run_avalanches (rng : RandomSource) (net : Network) (n_seeds : ℕ)
    (threshold : ℚ) (seed : Option ℕ) (st : rng.State) : List ℕ × rng.State :=
  let st1 := npseed rng seed st
  let pick := draw_distinct rng (min n_seeds net.n_nodes) (List.range net.n_nodes) st1
  (pick.1.map (fun s => avalanche_size net s threshold), pick.2)

/-- Planck constant over 2 pi, 1.0545718e-34, as in the source header. -/
def hbar : ℚ := 10545718 / 10 ^ 41

/-- Gravitational constant 6.67430e-11, as in the source header. -/
def G_newton : ℚ := 667430 / 10 ^ 16

/-- Tubulin mass 1e-22, as in the source header. -/
def m_tubulin : ℚ := 1 / 10 ^ 22

/-- Separation distance 1e-11, as in the source header. -/
def d_separation : ℚ := 1 / 10 ^ 11

/-- Embedding of or_collapse_time: hbar divided by the gravitational
self-energy of N tubulins. -/
def or_collapse_time (N : ℚ) : ℚ :=
  hbar / (N * (G_newton * m_tubulin ^ 2 / d_separation))

/-- Embedding of or_bias_fraction (quantum_avalanche_v3.py lines 41-46):
the base fraction scaled by the clipped collapse-time quotient. -/
def or_bias_fraction (N_tubulins base_fraction : ℚ) : ℚ :=
  let tau := or_collapse_time N_tubulins
  let tau_ref := or_collapse_time (10 ^ 10)
  base_fraction * pyclip (tau_ref / tau) (1/2) 2

/-- One in-place weight update G[u][v]['weight'] += s at edge index i of
the edge list (out-of-range indices leave the list unchanged; the callers
only produce in-range indices). -/
def bump_at : List Edge → ℕ → ℚ → List Edge
  | [], _, _ => []
  | e :: es, 0, s => { e with weight := e.weight + s } :: es
  | e :: es, Nat.succ i, s => e :: bump_at es i s

/-- The update loop of apply_bias: add s to the current weight of the edge
at each selected index, in order. -/
def apply_bias_core (edges : List Edge) (idxs : List ℕ) (s : ℚ) : List Edge :=
  idxs.foldl (fun acc i => bump_at acc i s) edges

namespace V2

/-- Embedding of apply_bias of quantum_avalanche_v2.py (lines 100-114):
reseed, compute n_bias = int(E * fraction) by truncation, return
unchanged if n_bias is zero, otherwise select n_bias distinct edge indices
without replacement and add bias_strength to each selected current weight.
The middle component of the result collects the warnings emitted by the
call; the source emits none, so it is always empty. -/
def apply_bias (rng : RandomSource) (net : Network)
    (bias_fraction bias_strength : ℚ) (seed : Option ℕ) (st : rng.State) :
    Network × List String × rng.State :=
  let st1 := npseed rng seed st
  let E := net.edges.length
  let n_bias := (pytrunc ((E : ℚ) * bias_fraction)).toNat
  if n_bias = 0 then (net, [], st1)
  else
    let pick := np_choice rng E n_bias st1
    ({ net with edges := apply_bias_core net.edges pick.1 bias_strength }, [], pick.2)

end V2

namespace V3

/-- Embedding of apply_bias of quantum_avalanche_v3.py (lines 206-217):
identical to the v2 version except that n_bias = max(1, int(E * fraction))
and there is no zero guard, so at least one edge is always selected. -/
def apply_bias (rng : RandomSource) (net : Network)
    (bias_fraction bias_strength : ℚ) (seed : Option ℕ) (st : rng.State) :
    Network × rng.State :=
  let st1 := npseed rng seed st
  let E := net.edges.length
  let n_bias := max 1 (pytrunc ((E : ℚ) * bias_fraction)).toNat
  let pick := np_choice rng E n_bias st1
  ({ net with edges := apply_bias_core net.edges pick.1 bias_strength }, pick.2)

/-- Embedding of collapse_to_avalanches of quantum_avalanche_v3.py (lines
229-241), processing loop with the running sum as accumulator: positive
entries extend the current run, a zero entry flushes a positive run, and a
positive run still open at the end of the trace is flushed as a final
avalanche. -/
def collapse_go : List ℕ → ℕ → List ℕ
  | [], run => if 0 < run then [run] else []
  | v :: vs, run =>
    if 0 < v then collapse_go vs (run + v)
    else if 0 < run then run :: collapse_go vs 0
    else collapse_go vs 0

/-- Embedding of collapse_to_avalanches of quantum_avalanche_v3.py: convert
a sequence of bin counts into contiguous avalanches (sums of maximal
nonzero runs). -/
def collapse_to_avalanches (seq : List ℕ) : List ℕ :=
  collapse_go seq 0

end V3

/-- Embedding of run_classical of quantum_avalanche_v3.py (lines 289-291):
reset the network and run the avalanche batch.  The mutated network object
is returned alongside, as the source mutates its argument in place. -/
def run_classical (rng : RandomSource) (net : Network) (n_seeds : ℕ)
    (threshold : ℚ) (seed : ℕ) (st : rng.State) :
    List ℕ × Network × rng.State :=
  let net1 := reset_network net
  let r := run_avalanches rng net1 n_seeds threshold (some seed) st
  (r.1, net1, r.2)

/-- Embedding of run_quantum_positive of quantum_avalanche_v3.py (lines
294-300): reset, apply the OR-linked positive edge bias with seed + 5000,
then run the avalanche batch with the given seed. -/
def run_quantum_positive (rng : RandomSource) (net : Network) (n_seeds : ℕ)
    (threshold : ℚ) (seed : ℕ) (N_tubulins base_bias_fraction bias_strength : ℚ)
    (st : rng.State) : List ℕ × Network × rng.State :=
  let net1 := reset_network net
  let bias_frac := or_bias_fraction N_tubulins base_bias_fraction
  let b := V3.apply_bias rng net1 bias_frac bias_strength (some (seed + 5000)) st
  let r := run_avalanches rng b.1 n_seeds threshold (some seed) b.2
  (r.1, b.1, r.2)

/-- Embedding of run_quantum_negative of quantum_avalanche_v3.py (lines
303-309): as run_quantum_positive but with the negated bias strength. -/
def run_quantum_negative (rng : RandomSource) (net : Network) (n_seeds : ℕ)
    (threshold : ℚ) (seed : ℕ) (N_tubulins base_bias_fraction bias_strength : ℚ)
    (st : rng.State) : List ℕ × Network × rng.State :=
  let net1 := reset_network net
  let bias_frac := or_bias_fraction N_tubulins base_bias_fraction
  let b := V3.apply_bias rng net1 bias_frac (-bias_strength) (some (seed + 5000)) st
  let r := run_avalanches rng b.1 n_seeds threshold (some seed) b.2
  (r.1, b.1, r.2)

/-- Uniform thermal boost of run_mimic: set every current weight to the
original weight plus the boost. -/
def set_boost (net : Network) (boost : ℚ) : Network :=
  { net with edges := net.edges.map (fun e => { e with weight := e.original + boost }) }

/-- The bounded calibration loop of run_mimic of quantum_avalanche_v3.py
(lines 312-329): at most five iterations; each iteration resets, applies
the uniform boost, measures a fresh avalanche batch with seed + 1000, and
either raises the boost by 0.02 and continues (mean still below target and
boost below max_boost) or stops, returning the last measured batch. -/
def run_mimic_go (rng : RandomSource) (net : Network) (n_seeds : ℕ)
    (threshold : ℚ) (seed : ℕ) (target_mean max_boost : ℚ) :
    ℕ → ℚ → List ℕ × Network × rng.State → List ℕ × Network × rng.State
  | 0, _, last => last
  | Nat.succ m, boost, last =>
    let netb := set_boost net boost
    let r := run_avalanches rng netb n_seeds threshold (some (seed + 1000)) last.2.2
    if pymean_nat r.1 < target_mean ∧ boost < max_boost then
      run_mimic_go rng net n_seeds threshold seed target_mean max_boost m
        (boost + 2/100) (r.1, netb, r.2)
    else (r.1, netb, r.2)

/-- Embedding of run_mimic of quantum_avalanche_v3.py (lines 312-329). -/
def run_mimic (rng : RandomSource) (net : Network) (n_seeds : ℕ)
    (threshold : ℚ) (seed : ℕ) (target_mean max_boost : ℚ) (st : rng.State) :
    List ℕ × Network × rng.State :=
  let net1 := reset_network net
  run_mimic_go rng net1 n_seeds threshold seed target_mean max_boost 5 0 ([], net1, st)

/-- Per-trial observables of one iteration of the monte_carlo loop of
quantum_avalanche_v3.py: the raw BFS size batches of the four conditions,
the collapsed avalanche lists recorded in the results dictionary, and the
calibration target mean handed to run_mimic. -/
structure TrialRecord where
  sizes_c : List ℕ
  sizes_qp : List ℕ
  sizes_qn : List ℕ
  sizes_m : List ℕ
  aval_c : List ℕ
  aval_qp : List ℕ
  aval_qn : List ℕ
  aval_m : List ℕ
  target_mean : ℚ
deriving DecidableEq

/-- Embedding of one iteration of the monte_carlo loop of
quantum_avalanche_v3.py (lines 354-389): build a fresh network seeded with
the run index, run the classical, quantum-positive and quantum-negative
conditions, compute the mimic target mean from the quantum-positive sizes
of this same iteration (np.mean(sizes_qp) if sizes_qp.size else 0), run the
mimic condition with it, and collapse each batch into avalanche lists. -/
def monte_carlo_trial (rng : RandomSource) (ws : WSModel)
    (N_nodes n_seeds_per_run : ℕ) (threshold N_tubulins base_bias_fraction bias_strength : ℚ)
    (run : ℕ) (st : rng.State) : TrialRecord × rng.State :=
  let g := create_network rng ws N_nodes 10 (1/10) (some run) st
  let c := run_classical rng g.1 n_seeds_per_run threshold run g.2
  let qp := run_quantum_positive rng c.2.1 n_seeds_per_run threshold (run + 10000)
    N_tubulins base_bias_fraction bias_strength c.2.2
  let qn := run_quantum_negative rng qp.2.1 n_seeds_per_run threshold (run + 20000)
    N_tubulins base_bias_fraction bias_strength qp.2.2
  let target := if qp.1 = [] then 0 else pymean_nat qp.1
  let m := run_mimic rng qn.2.1 n_seeds_per_run threshold (run + 30000) target (15/100) qn.2.2
  ({ sizes_c := c.1
     sizes_qp := qp.1
     sizes_qn := qn.1
     sizes_m := m.1
     aval_c := V3.collapse_to_avalanches c.1
     aval_qp := V3.collapse_to_avalanches qp.1
     aval_qn := V3.collapse_to_avalanches qn.1
     aval_m := V3.collapse_to_avalanches m.1
     target_mean := target }, m.2.2)

/-- The monte_carlo loop over the run indices, threading the global
generator state from one trial into the next. -/
def monte_carlo_go (rng : RandomSource) (ws : WSModel)
    (N_nodes n_seeds_per_run : ℕ) (threshold N_tubulins base_bias_fraction bias_strength : ℚ) :
    List ℕ → rng.State → List TrialRecord
  | [], _ => []
  | r :: rs, st =>
    let t := monte_carlo_trial rng ws N_nodes n_seeds_per_run threshold
      N_tubulins base_bias_fraction bias_strength r st
    t.1 :: monte_carlo_go rng ws N_nodes n_seeds_per_run threshold
      N_tubulins base_bias_fraction bias_strength rs t.2

/-- Embedding of monte_carlo of quantum_avalanche_v3.py (lines 336-395):
the per-trial records of runs 0 .. n_runs-1, in order. -/
def monte_carlo (rng : RandomSource) (ws : WSModel) (n_runs N_nodes n_seeds_per_run : ℕ)
    (threshold N_tubulins base_bias_fraction bias_strength : ℚ) (st : rng.State) :
    List TrialRecord :=
  monte_carlo_go rng ws N_nodes n_seeds_per_run threshold N_tubulins
    base_bias_fraction bias_strength (List.range n_runs) st

namespace Epochs

/-- Processing loop of collapse_to_avalanches of quantum_avalanche_epochs.py
(lines 249-268), with the running sum and the in_avalanche flag as
accumulators: a count above the threshold extends the current avalanche, a
count at or below it flushes an open avalanche, and an avalanche still open
at the end of the trace is flushed as a final avalanche. -/
def collapse_go (threshold : ℕ) : List ℕ → ℕ → Bool → List ℕ
  | [], current, in_avalanche => if in_avalanche then [current] else []
  | c :: cs, current, in_avalanche =>
    if threshold < c then collapse_go threshold cs (current + c) true
    else if in_avalanche then current :: collapse_go threshold cs 0 false
    else collapse_go threshold cs 0 false

/-- Embedding of collapse_to_avalanches of quantum_avalanche_epochs.py:
convert activity counts to avalanche sizes relative to a count threshold
(default 0 in the source). -/
def collapse_to_avalanches (counts : List ℕ) (threshold : ℕ) : List ℕ :=
  collapse_go threshold counts 0 false

/-- Embedding of fit_power_law of quantum_avalanche_epochs.py (lines
271-278), identical to fit_power_law of unified_quantum_test.py (lines
330-337).  The natural logarithm and the square root of the external float
library are abstract function parameters lg and sq; the NaN pair returned
by the source on fewer than ten qualifying samples is modelled as none. -/
def fit_power_law (lg sq : ℚ → ℚ) (sizes : List ℚ) (xmin : ℚ) : Option (ℚ × ℚ) :=
  let qual := sizes.filter (fun s => xmin ≤ s)
  if qual.length < 10 then none
  else
    let n : ℚ := (qual.length : ℚ)
    let alpha := 1 + n / ((qual.map (fun s => lg (s / xmin))).sum)
    some (alpha, (alpha - 1) / sq n)

end Epochs

namespace UQT

/-- Hamming distance between two consecutive spin configurations: the
number of positions whose spin differs (np.sum of an elementwise
inequality). -/
def flips_between (a b : List Bool) : ℕ :=
  (List.zipWith (fun x y => decide (x ≠ y)) a b).count true

/-- Per-step flip counts of a spin history: Hamming distance between each
pair of consecutive configurations. -/
def flip_counts (hist : List (List Bool)) : List ℕ :=
  List.zipWith flips_between hist hist.tail

/-- The run-collapsing loop of compute_avalanches_size, over the list of
(flip count, active flag) pairs, with the accumulated burst size and the
in_avalanche flag as accumulators. -/
def sum_active_runs : List (ℕ × Bool) → ℕ → Bool → List ℕ
  | [], current, in_avalanche => if in_avalanche then [current] else []
  | (f, a) :: rest, current, in_avalanche =>
    if a then sum_active_runs rest (current + f) true
    else if in_avalanche then current :: sum_active_runs rest 0 false
    else sum_active_runs rest 0 false

/-- The active flags of compute_avalanches_size: a step is active when its
flip count exceeds mean_flips * (1 + threshold). -/
def active_flags (fc : List ℕ) (threshold : ℚ) : List Bool :=
  fc.map (fun f : ℕ => decide (pymean_nat fc * (1 + threshold) < (f : ℚ)))

/-- Embedding of compute_avalanches_size of unified_quantum_test.py (lines
275-316): flip counts between consecutive spin configurations, a relative
activity threshold against the mean flip count, and contiguous active runs
collapsed into total-flip burst sizes. -/
def compute_avalanches_size (hist : List (List Bool)) (threshold : ℚ) : List ℕ :=
  if hist.length < 2 then []
  else
    let fc := flip_counts hist
    sum_active_runs (fc.zip (active_flags fc threshold)) 0 false

/-- The total flip count over the steps classified as active, the quantity
the flip-count extraction mode is conserving. -/
def active_flip_total (hist : List (List Bool)) (threshold : ℚ) : ℕ :=
  if hist.length < 2 then 0
  else
    let fc := flip_counts hist
    ((fc.zip (active_flags fc threshold)).filter (fun p => p.2)).foldr (fun p acc => p.1 + acc) 0

end UQT

/-- The per-node firing probability vector of simulate_time_bins: the
baseline prob_fire everywhere, with the bias added and clipped to [0, 1]
on the bias nodes when a bias is configured. -/
def sim_prob (prob_fire : ℚ) (bias_nodes : Option (List ℕ)) (bias_strength : ℚ)
    (i : ℕ) : ℚ :=
  match bias_nodes with
  | some bn =>
    if bias_strength ≠ 0 ∧ i ∈ bn then pyclip (prob_fire + bias_strength) 0 1
    else prob_fire
  | none => prob_fire

/-- One step of the stepped stochastic cascade of simulate_time_bins: a
node is active when it fires spontaneously (uniform draw below its firing
probability) or a neighbour across a super-threshold edge was active in the
previous step; with refractory mode enabled the new mask is additionally
masked by the negation of the previous mask. -/
def sim_step (rng : RandomSource) (net : Network) (prob : ℕ → ℚ) (threshold : ℚ)
    (refractory : Bool) (last : List Bool) (st : rng.State) : List Bool × rng.State :=
  let d := rand_list rng net.n_nodes st
  let mask := (List.range net.n_nodes).map (fun i =>
    let spontaneous := decide (d.1.getD i 1 < prob i)
    let neighbor_hit := net.edges.any (fun e =>
      (last.getD e.u false && decide (threshold < e.weight) && decide (e.v = i)) ||
      (last.getD e.v false && decide (threshold < e.weight) && decide (e.u = i)))
    (spontaneous || neighbor_hit) && (!refractory || !(last.getD i false)))
  (mask, d.2)

/-- The time loop of simulate_time_bins: the successive activation masks,
each step feeding its mask into the next as the previous mask. -/
def sim_masks_go (rng : RandomSource) (net : Network) (prob : ℕ → ℚ) (threshold : ℚ)
    (refractory : Bool) : ℕ → List Bool → rng.State → List (List Bool) × rng.State
  | 0, _, st => ([], st)
  | Nat.succ m, last, st =>
    let s := sim_step rng net prob threshold refractory last st
    let rest := sim_masks_go rng net prob threshold refractory m s.1 s.2
    (s.1 :: rest.1, rest.2)

/-- Embedding of simulate_time_bins of quantum_avalanche_v3.py (lines
244-282), kept at the level of the per-step activation masks (the source
stores each mask and returns the per-step counts; the counts are recovered
by sim_counts below).  The internal network build draws one N(1.0, 0.12)
weight per edge of the Watts-Strogatz graph; the initial mask is all
inactive. -/
def simulate_time_bins_masks (rng : RandomSource) (ws : WSModel) (N k : ℕ) (p : ℚ)
    (n_bins : ℕ) (prob_fire base_threshold : ℚ) (bias_nodes : Option (List ℕ))
    (bias_strength : ℚ) (seed : Option ℕ) (refractory : Bool) (st : rng.State) :
    List (List Bool) × rng.State :=
  let st1 := npseed rng seed st
  let es := ws N k p seed
  let w := assign_weights rng (12/100) es st1
  let net : Network := { n_nodes := N, edges := w.1 }
  let prob := sim_prob prob_fire bias_nodes bias_strength
  sim_masks_go rng net prob base_threshold refractory n_bins
    (List.replicate N false) w.2

/-- Embedding of simulate_time_bins of quantum_avalanche_v3.py: the
per-bin active-unit counts. -/
def simulate_time_bins (rng : RandomSource) (ws : WSModel) (N k : ℕ) (p : ℚ)
    (n_bins : ℕ) (prob_fire base_threshold : ℚ) (bias_nodes : Option (List ℕ))
    (bias_strength : ℚ) (seed : Option ℕ) (refractory : Bool) (st : rng.State) :
    List ℕ × rng.State :=
  let m := simulate_time_bins_masks rng ws N k p n_bins prob_fire base_threshold
    bias_nodes bias_strength seed refractory st
  (m.1.map (fun mask => mask.count true), m.2)

theorem collapse_go_sum (seq : List ℕ) :
    ∀ run, (V3.collapse_go seq run).sum = run + seq.sum := by
  induction seq with
  | nil =>
    intro run
    by_cases h : 0 < run <;> simp [V3.collapse_go, h]
    omega
  | cons v vs ih =>
    intro run
    by_cases hv : 0 < v
    · simp only [V3.collapse_go, hv, ite_true, ih, List.sum_cons]
      omega
    · have hv0 : v = 0 := by omega
      subst hv0
      by_cases hr : 0 < run
      all_goals simp [V3.collapse_go, hr, ih, List.sum_cons]
      all_goals omega

theorem collapse_go_pos (seq : List ℕ) :
    ∀ run s, s ∈ V3.collapse_go seq run → 0 < s := by
  induction seq with
  | nil =>
    intro run s hs
    by_cases h : 0 < run <;> simp [V3.collapse_go, h] at hs
    omega
  | cons v vs ih =>
    intro run s hs
    by_cases hv : 0 < v
    · simp only [V3.collapse_go, hv, ite_true] at hs
      exact ih _ _ hs
    · have hv0 : v = 0 := by omega
      subst hv0
      by_cases hr : 0 < run
      · simp only [V3.collapse_go, lt_irrefl, ite_false, hr, ite_true,
          List.mem_cons] at hs
        rcases hs with hs | hs
        · omega
        · exact ih _ _ hs
      · simp only [V3.collapse_go, lt_irrefl, ite_false, hr] at hs
        exact ih _ _ hs

theorem collapse_go_quiescent (seq : List ℕ) (h : ∀ v ∈ seq, v = 0) :
    V3.collapse_go seq 0 = [] := by
  induction seq with
  | nil => simp [V3.collapse_go]
  | cons v vs ih =>
    have hv : v = 0 := h v (List.mem_cons_self _ _)
    subst hv
    simp only [V3.collapse_go, lt_irrefl, ite_false]
    exact ih (fun x hx => h x (List.mem_cons_of_mem _ hx))

theorem collapse_go_cons (v : ℕ) (vs : List ℕ) (run : ℕ) :
    V3.collapse_go (v :: vs) run =
      if 0 < v then V3.collapse_go vs (run + v)
      else if 0 < run then run :: V3.collapse_go vs 0
      else V3.collapse_go vs 0 := rfl

theorem collapse_go_all_pos (r : List ℕ) (hne : r ≠ []) (hpos : ∀ v ∈ r, 0 < v) :
    ∀ run, V3.collapse_go r run = [run + r.sum] := by
  induction r with
  | nil => exact absurd rfl hne
  | cons v vs ih =>
    intro run
    have hv : 0 < v := hpos v (List.mem_cons_self _ _)
    rw [collapse_go_cons, if_pos hv]
    by_cases hvs : vs = []
    · subst hvs
      have hrv : 0 < run + v := by omega
      simp [V3.collapse_go, hrv]
    · rw [ih hvs (fun x hx => hpos x (List.mem_cons_of_mem _ hx))]
      simp only [List.sum_cons]
      congr 1
      omega

theorem collapse_go_split (r : List ℕ) :
    ∀ xs run, xs.getLast? = some 0 →
      V3.collapse_go (xs ++ r) run = V3.collapse_go xs run ++ V3.collapse_go r 0 := by
  intro xs
  induction xs with
  | nil => intro run h; simp at h
  | cons x t ih =>
    intro run h
    cases t with
    | nil =>
      have hx : x = 0 := by simpa using h
      subst hx
      rw [List.cons_append, List.nil_append, collapse_go_cons, if_neg (lt_irrefl 0),
        collapse_go_cons 0 ([] : List ℕ), if_neg (lt_irrefl 0)]
      by_cases hr : 0 < run <;> simp [V3.collapse_go, hr]
    | cons y t2 =>
      have ht : (y :: t2).getLast? = some 0 := by
        rwa [List.getLast?_cons_cons] at h
      rw [List.cons_append, collapse_go_cons x ((y :: t2) ++ r) run,
        collapse_go_cons x (y :: t2) run]
      by_cases hx : 0 < x
      · rw [if_pos hx, if_pos hx]
        exact ih _ ht
      · rw [if_neg hx, if_neg hx]
        by_cases hr : 0 < run
        · rw [if_pos hr, if_pos hr, ih 0 ht, List.cons_append]
        · rw [if_neg hr, if_neg hr, ih 0 ht]

theorem epochs_collapse_go_pos (threshold : ℕ) (counts : List ℕ) :
    ∀ current in_avalanche, (in_avalanche = true → 0 < current) →
      ∀ s ∈ Epochs.collapse_go threshold counts current in_avalanche, 0 < s := by
  induction counts with
  | nil =>
    intro current inA hinv s hs
    cases inA <;> simp [Epochs.collapse_go] at hs
    subst hs
    exact hinv rfl
  | cons c cs ih =>
    intro current inA hinv s hs
    by_cases hc : threshold < c
    · simp only [Epochs.collapse_go, hc, ite_true] at hs
      exact ih _ _ (fun _ => by omega) s hs
    · cases inA with
      | true =>
        simp only [Epochs.collapse_go, hc, ite_false, ite_true, List.mem_cons] at hs
        rcases hs with hs | hs
        · subst hs; exact hinv rfl
        · exact ih _ _ (fun hcon => by cases hcon) s hs
      | false =>
        simp only [Epochs.collapse_go, hc, ite_false, Bool.false_eq_true] at hs
        exact ih _ _ (fun hcon => by cases hcon) s hs

theorem epochs_collapse_go_quiescent (threshold : ℕ) (counts : List ℕ)
    (h : ∀ c ∈ counts, c ≤ threshold) :
    Epochs.collapse_go threshold counts 0 false = [] := by
  induction counts with
  | nil => simp [Epochs.collapse_go]
  | cons c cs ih =>
    have hc : ¬ threshold < c := not_lt.mpr (h c (List.mem_cons_self _ _))
    simp only [Epochs.collapse_go, hc, ite_false, Bool.false_eq_true]
    exact ih (fun x hx => h x (List.mem_cons_of_mem _ hx))

theorem sum_active_runs_sum :
    ∀ (l : List (ℕ × Bool)) (current : ℕ),
      ((UQT.sum_active_runs l current true).sum =
        current + (l.filter (fun p => p.2)).foldr (fun p acc => p.1 + acc) 0) ∧
      ((UQT.sum_active_runs l 0 false).sum =
        (l.filter (fun p => p.2)).foldr (fun p acc => p.1 + acc) 0) := by
  intro l
  induction l with
  | nil => intro current; simp [UQT.sum_active_runs]
  | cons p rest ih =>
    intro current
    obtain ⟨f, a⟩ := p
    cases a with
    | true =>
      have hfilter : ((f, true) :: rest).filter (fun p => p.2) =
          (f, true) :: rest.filter (fun p => p.2) := by simp
      constructor
      · show (UQT.sum_active_runs rest (current + f) true).sum =
          current + (((f, true) :: rest).filter (fun p => p.2)).foldr (fun p acc => p.1 + acc) 0
        rw [hfilter, List.foldr_cons, (ih (current + f)).1]
        omega
      · show (UQT.sum_active_runs rest (0 + f) true).sum =
          (((f, true) :: rest).filter (fun p => p.2)).foldr (fun p acc => p.1 + acc) 0
        rw [hfilter, List.foldr_cons, (ih (0 + f)).1]
        omega
    | false =>
      have hfilter : ((f, false) :: rest).filter (fun p => p.2) =
          rest.filter (fun p => p.2) := by simp
      constructor
      · show (current :: UQT.sum_active_runs rest 0 false).sum =
          current + (((f, false) :: rest).filter (fun p => p.2)).foldr (fun p acc => p.1 + acc) 0
        rw [hfilter, List.sum_cons, (ih 0).2]
      · show (UQT.sum_active_runs rest 0 false).sum =
          (((f, false) :: rest).filter (fun p => p.2)).foldr (fun p acc => p.1 + acc) 0
        rw [hfilter]
        exact (ih 0).2

theorem sum_active_runs_pos :
    ∀ (l : List (ℕ × Bool)) (current : ℕ) (in_avalanche : Bool),
      (∀ p ∈ l, p.2 = true → 0 < p.1) →
      (in_avalanche = true → 0 < current) →
      ∀ s ∈ UQT.sum_active_runs l current in_avalanche, 0 < s := by
  intro l
  induction l with
  | nil =>
    intro current inA _ hinv s hs
    cases inA <;> simp [UQT.sum_active_runs] at hs
    subst hs
    exact hinv rfl
  | cons p rest ih =>
    intro current inA hl hinv s hs
    obtain ⟨f, a⟩ := p
    have hf : a = true → 0 < f := hl (f, a) (List.mem_cons_self _ _)
    have hrest : ∀ q ∈ rest, q.2 = true → 0 < q.1 :=
      fun q hq => hl q (List.mem_cons_of_mem _ hq)
    cases a with
    | true =>
      simp only [UQT.sum_active_runs, ite_true] at hs
      exact ih _ _ hrest (fun _ => by have := hf rfl; omega) s hs
    | false =>
      cases inA with
      | true =>
        simp only [UQT.sum_active_runs, Bool.false_eq_true, ite_false, ite_true,
          List.mem_cons] at hs
        rcases hs with hs | hs
        · subst hs; exact hinv rfl
        · exact ih _ _ hrest (fun hcon => by cases hcon) s hs
      | false =>
        simp only [UQT.sum_active_runs, Bool.false_eq_true, ite_false] at hs
        exact ih _ _ hrest (fun hcon => by cases hcon) s hs

theorem zip_map_snd (g : ℕ → Bool) :
    ∀ (l : List ℕ) (p : ℕ × Bool), p ∈ l.zip (l.map g) → p.2 = g p.1 := by
  intro l
  induction l with
  | nil => intro p hp; simp at hp
  | cons x xs ih =>
    intro p hp
    simp only [List.map_cons, List.zip_cons_cons, List.mem_cons] at hp
    rcases hp with hp | hp
    · subst hp; rfl
    · exact ih p hp

/-- C4: in duration/size extraction (collapse_to_avalanches of
quantum_avalanche_v3.py) the sum of the extracted avalanche sizes never
exceeds the summed per-step activity of the trace; in flip-count
extraction (compute_avalanches_size of unified_quantum_test.py) the sum of
the avalanche sizes equals the total flip count over the steps classified
as active; and no extracted avalanche has size zero (for the flip-count
mode this is proved for every nonnegative relative threshold, which covers
the configured regime of the source, whose only relative threshold is
0.1). -/
theorem claim_C4 (seq : List ℕ) (hist : List (List Bool)) (threshold : ℚ) :
    (V3.collapse_to_avalanches seq).sum ≤ seq.sum ∧
    (UQT.compute_avalanches_size hist threshold).sum = UQT.active_flip_total hist threshold ∧
    (∀ s ∈ V3.collapse_to_avalanches seq, 0 < s) ∧
    (0 ≤ threshold → ∀ s ∈ UQT.compute_avalanches_size hist threshold, 0 < s) := by
  refine ⟨?_, ?_, ?_, ?_⟩
  · exact le_of_eq (by rw [V3.collapse_to_avalanches, collapse_go_sum]; omega)
  · unfold UQT.compute_avalanches_size UQT.active_flip_total
    by_cases h2 : hist.length < 2
    · simp [h2]
    · simp only [h2, ite_false]
      exact (sum_active_runs_sum _ 0).2
  · exact collapse_go_pos seq 0
  · intro hthr s hs
    unfold UQT.compute_avalanches_size at hs
    by_cases h2 : hist.length < 2
    · simp [h2] at hs
    · simp only [h2, ite_false] at hs
      refine sum_active_runs_pos _ 0 false ?_ (fun hcon => by cases hcon) s hs
      intro p hp hpa
      unfold UQT.active_flags at hp
      have hsnd := zip_map_snd
        (fun f => decide (pymean_nat (UQT.flip_counts hist) * (1 + threshold) < (f : ℚ)))
        (UQT.flip_counts hist) p hp
      rw [hpa] at hsnd
      have hlt : pymean_nat (UQT.flip_counts hist) * (1 + threshold) < (p.1 : ℚ) :=
        of_decide_eq_true hsnd.symm
      have hm : 0 ≤ pymean_nat (UQT.flip_counts hist) := by
        unfold pymean_nat pymean
        apply div_nonneg
        · apply List.sum_nonneg
          intro x hx
          rcases List.mem_map.mp hx with ⟨y, _, hy⟩
          rw [← hy]
          exact Nat.cast_nonneg y
        · exact Nat.cast_nonneg _
      have hprod : (0 : ℚ) ≤ pymean_nat (UQT.flip_counts hist) * (1 + threshold) :=
        mul_nonneg hm (by linarith)
      have : (0 : ℚ) < (p.1 : ℚ) := lt_of_le_of_lt hprod hlt
      exact_mod_cast this

/-- C5: the avalanche extractor returns only positive sizes; an
all-quiescent trace yields the empty list (shown both for
collapse_to_avalanches of quantum_avalanche_v3.py, where quiescent means
zero, and for collapse_to_avalanches of quantum_avalanche_epochs.py, where
quiescent means at or below the count threshold); and a run of active
steps still open at the end of the trace is emitted as a final
avalanche. -/
theorem claim_C5 (seq : List ℕ) :
    (∀ s ∈ V3.collapse_to_avalanches seq, 0 < s) ∧
    ((∀ v ∈ seq, v = 0) → V3.collapse_to_avalanches seq = []) ∧
    (∀ xs r, seq = xs ++ r → r ≠ [] → (∀ v ∈ r, 0 < v) →
      (xs = [] ∨ xs.getLast? = some 0) →
      V3.collapse_to_avalanches seq = V3.collapse_to_avalanches xs ++ [r.sum]) ∧
    (∀ (counts : List ℕ) (threshold : ℕ),
      (∀ s ∈ Epochs.collapse_to_avalanches counts threshold, 0 < s) ∧
      ((∀ c ∈ counts, c ≤ threshold) →
        Epochs.collapse_to_avalanches counts threshold = [])) := by
  refine ⟨collapse_go_pos seq 0, collapse_go_quiescent seq, ?_, ?_⟩
  · intro xs r hseq hne hpos hlast
    subst hseq
    rcases hlast with hnil | hlast
    · subst hnil
      rw [List.nil_append]
      unfold V3.collapse_to_avalanches
      rw [collapse_go_all_pos r hne hpos 0]
      simp [V3.collapse_go]
    · unfold V3.collapse_to_avalanches
      rw [collapse_go_split r xs 0 hlast, collapse_go_all_pos r hne hpos 0]
      simp
  · intro counts threshold
    exact ⟨epochs_collapse_go_pos threshold counts 0 false (fun hcon => by cases hcon),
      epochs_collapse_go_quiescent threshold counts⟩

/-- C6: the MLE power-law fit of quantum_avalanche_epochs.py (identical in
unified_quantum_test.py) returns alpha = 1 + n / sum(ln(size/x_min)) over
the n qualifying samples (size at least x_min) together with the standard
error (alpha - 1)/sqrt(n) whenever at least 10 samples qualify, and
returns the NaN sentinel pair (modelled as none) whenever fewer than 10
qualify; being a total function, it never raises. -/
theorem claim_C6 (lg sq : ℚ → ℚ) (sizes : List ℚ) (xmin : ℚ) :
    ((sizes.filter (fun s => xmin ≤ s)).length < 10 →
      Epochs.fit_power_law lg sq sizes xmin = none) ∧
    (10 ≤ (sizes.filter (fun s => xmin ≤ s)).length →
      Epochs.fit_power_law lg sq sizes xmin =
        some (1 + ((sizes.filter (fun s => xmin ≤ s)).length : ℚ) /
              (((sizes.filter (fun s => xmin ≤ s)).map (fun s => lg (s / xmin))).sum),
          (1 + ((sizes.filter (fun s => xmin ≤ s)).length : ℚ) /
              (((sizes.filter (fun s => xmin ≤ s)).map (fun s => lg (s / xmin))).sum) - 1) /
            sq ((sizes.filter (fun s => xmin ≤ s)).length : ℚ))) := by
  constructor
  · intro h
    unfold Epochs.fit_power_law
    simp only [h, ite_true]
  · intro h
    unfold Epochs.fit_power_law
    simp only [not_lt.mpr h, ite_false]

theorem bump_at_length : ∀ (es : List Edge) (i : ℕ) (s : ℚ),
    (bump_at es i s).length = es.length := by
  intro es
  induction es with
  | nil => intro i s; rfl
  | cons e es ih =>
    intro i s
    cases i with
    | zero => rfl
    | succ i => simp [bump_at, ih]

theorem bump_at_get_ne : ∀ (es : List Edge) (i j : ℕ) (s : ℚ), j ≠ i →
    (bump_at es i s)[j]? = es[j]? := by
  intro es
  induction es with
  | nil => intro i j s _; rfl
  | cons e es ih =>
    intro i j s hne
    cases i with
    | zero =>
      cases j with
      | zero => exact absurd rfl hne
      | succ j =>
        show ({ e with weight := e.weight + s } :: es)[j + 1]? = (e :: es)[j + 1]?
        rw [List.getElem?_cons_succ, List.getElem?_cons_succ]
    | succ i =>
      cases j with
      | zero =>
        show (e :: bump_at es i s)[0]? = (e :: es)[0]?
        rw [List.getElem?_cons_zero, List.getElem?_cons_zero]
      | succ j =>
        show (e :: bump_at es i s)[j + 1]? = (e :: es)[j + 1]?
        rw [List.getElem?_cons_succ, List.getElem?_cons_succ]
        exact ih i j s (fun h => hne (by rw [h]))

theorem bump_at_get_eq : ∀ (es : List Edge) (i : ℕ) (s : ℚ),
    (bump_at es i s)[i]? = (es[i]?).map (fun e => { e with weight := e.weight + s }) := by
  intro es
  induction es with
  | nil => intro i s; rfl
  | cons e es ih =>
    intro i s
    cases i with
    | zero =>
      show ({ e with weight := e.weight + s } :: es)[0]? = ((e :: es)[0]?).map _
      rw [List.getElem?_cons_zero, List.getElem?_cons_zero, Option.map_some']
    | succ i =>
      show (e :: bump_at es i s)[i + 1]? = ((e :: es)[i + 1]?).map _
      rw [List.getElem?_cons_succ, List.getElem?_cons_succ]
      exact ih i s

theorem apply_bias_core_length (s : ℚ) : ∀ (idxs : List ℕ) (edges : List Edge),
    (apply_bias_core edges idxs s).length = edges.length := by
  intro idxs
  induction idxs with
  | nil => intro edges; rfl
  | cons i is ih =>
    intro edges
    show (apply_bias_core (bump_at edges i s) is s).length = edges.length
    rw [ih, bump_at_length]

theorem apply_bias_core_get_not_mem (s : ℚ) : ∀ (idxs : List ℕ) (edges : List Edge) (j : ℕ),
    j ∉ idxs → (apply_bias_core edges idxs s)[j]? = edges[j]? := by
  intro idxs
  induction idxs with
  | nil => intro edges j _; rfl
  | cons i is ih =>
    intro edges j hj
    have hji : j ≠ i := fun h => hj (h ▸ List.mem_cons_self _ _)
    have hjis : j ∉ is := fun h => hj (List.mem_cons_of_mem _ h)
    show (apply_bias_core (bump_at edges i s) is s)[j]? = edges[j]?
    rw [ih _ _ hjis, bump_at_get_ne _ _ _ _ hji]

theorem apply_bias_core_get_mem (s : ℚ) : ∀ (idxs : List ℕ) (edges : List Edge) (j : ℕ),
    idxs.Nodup → j ∈ idxs →
    (apply_bias_core edges idxs s)[j]? =
      (edges[j]?).map (fun e => { e with weight := e.weight + s }) := by
  intro idxs
  induction idxs with
  | nil => intro edges j _ hj; simp at hj
  | cons i is ih =>
    intro edges j hnd hj
    have hnotin : i ∉ is := (List.nodup_cons.mp hnd).1
    show (apply_bias_core (bump_at edges i s) is s)[j]? = _
    rcases List.mem_cons.mp hj with hj | hj
    · subst hj
      rw [apply_bias_core_get_not_mem s is _ _ hnotin, bump_at_get_eq]
    · have hji : j ≠ i := fun h => hnotin (h ▸ hj)
      rw [ih _ _ (List.nodup_cons.mp hnd).2 hj, bump_at_get_ne _ _ _ _ hji]

theorem pytrunc_toNat_le (q : ℚ) (n : ℕ) (h : q ≤ (n : ℚ)) : (pytrunc q).toNat ≤ n := by
  unfold pytrunc
  by_cases h0 : 0 ≤ q
  · rw [if_pos h0, Int.toNat_le]
    calc ⌊q⌋ ≤ ⌊(n : ℚ)⌋ := Int.floor_le_floor h
    _ = (n : ℤ) := Int.floor_natCast n
  · rw [if_neg h0]
    have : (0 : ℤ) ≤ ⌊-q⌋ := Int.floor_nonneg.mpr (by linarith [not_le.mp h0])
    omega

/-- Characterisation of one edge-bias application: there is a
duplicate-free index selection of the prescribed size, every selected edge
has the signed strength added to its current weight, and every other edge
is untouched. -/
def bias_selection_spec (before after : List Edge) (s : ℚ) (k : ℕ) : Prop :=
  ∃ S : List ℕ, S.Nodup ∧ (∀ i ∈ S, i < before.length) ∧ S.length = k ∧
    after.length = before.length ∧
    (∀ j ∈ S, after[j]? = (before[j]?).map (fun e => { e with weight := e.weight + s })) ∧
    (∀ j, j ∉ S → after[j]? = before[j]?)

/-- C3 (amended): on a network with E edges and a fraction at most 1, the
v2 edge-bias apply operation selects exactly int(E * fraction) distinct
edges (truncation toward zero, so possibly none, in which case it returns
with no weight touched), and the v3 variant selects exactly
max(1, int(E * fraction)) distinct edges; each selected edge gets the
signed strength added to its current weight and no other weight changes.
The claimed cardinality round(E * fraction) is refuted by
claim_C3_counterexample. -/
theorem claim_C3 (rng : RandomSource) (net : Network) (fraction strength : ℚ)
    (seed : Option ℕ) (st : rng.State) (hf : fraction ≤ 1) (hE : 1 ≤ net.edges.length) :
    bias_selection_spec net.edges (V2.apply_bias rng net fraction strength seed st).1.edges
      strength (pytrunc ((net.edges.length : ℚ) * fraction)).toNat ∧
    bias_selection_spec net.edges (V3.apply_bias rng net fraction strength seed st).1.edges
      strength (max 1 (pytrunc ((net.edges.length : ℚ) * fraction)).toNat) := by
  have hkE : (pytrunc ((net.edges.length : ℚ) * fraction)).toNat ≤ net.edges.length := by
    apply pytrunc_toNat_le
    exact mul_le_of_le_one_right (Nat.cast_nonneg _) hf
  constructor
  · by_cases hk : (pytrunc ((net.edges.length : ℚ) * fraction)).toNat = 0
    · refine ⟨[], List.nodup_nil, by simp, by simp [hk], ?_, by simp, ?_⟩
      · simp only [V2.apply_bias, hk, ite_true]
      · intro j _
        simp only [V2.apply_bias, hk, ite_true]
    · refine ⟨(np_choice rng net.edges.length
        (pytrunc ((net.edges.length : ℚ) * fraction)).toNat (npseed rng seed st)).1,
        draw_distinct_nodup rng _ _ _ (List.nodup_range _), ?_, ?_, ?_, ?_, ?_⟩
      · intro i hi
        exact List.mem_range.mp (draw_distinct_mem rng _ _ _ _ hi)
      · rw [np_choice, draw_distinct_length, List.length_range]
        omega
      · simp only [V2.apply_bias, hk, ite_false]
        exact apply_bias_core_length _ _ _
      · intro j hj
        simp only [V2.apply_bias, hk, ite_false]
        exact apply_bias_core_get_mem _ _ _ _
          (draw_distinct_nodup rng _ _ _ (List.nodup_range _)) hj
      · intro j hj
        simp only [V2.apply_bias, hk, ite_false]
        exact apply_bias_core_get_not_mem _ _ _ _ hj
  · refine ⟨(np_choice rng net.edges.length
      (max 1 (pytrunc ((net.edges.length : ℚ) * fraction)).toNat) (npseed rng seed st)).1,
      draw_distinct_nodup rng _ _ _ (List.nodup_range _), ?_, ?_, ?_, ?_, ?_⟩
    · intro i hi
      exact List.mem_range.mp (draw_distinct_mem rng _ _ _ _ hi)
    · rw [np_choice, draw_distinct_length, List.length_range]
      omega
    · show (apply_bias_core net.edges _ strength).length = net.edges.length
      exact apply_bias_core_length _ _ _
    · intro j hj
      show (apply_bias_core net.edges _ strength)[j]? = _
      exact apply_bias_core_get_mem _ _ _ _
        (draw_distinct_nodup rng _ _ _ (List.nodup_range _)) hj
    · intro j hj
      show (apply_bias_core net.edges _ strength)[j]? = _
      exact apply_bias_core_get_not_mem _ _ _ _ hj

/-- The full neighbour list of a node, the iteration domain of the inner
loop of the BFS (G.neighbors(u) in networkx, both edge directions). -/
def adjacency (net : Network) (u : ℕ) : List ℕ :=
  net.edges.filterMap (fun e =>
    if e.u = u then some e.v else if e.v = u then some e.u else none)

/-- Termination potential of the BFS loop: one for the final empty-queue
test, one per queued entry, and one visit budget (degree plus one) per
not-yet-visited node.  Every loop iteration strictly decreases it. -/
def bfs_potential (net : Network) (queue visited : List ℕ) : ℕ :=
  1 + queue.length +
    ((Finset.range net.n_nodes) \ visited.toFinset).sum
      (fun u => (adjacency net u).length + 1)

theorem length_filterMap_le_of_isSome {α β γ : Type} (f : α → Option β) (g : α → Option γ)
    (h : ∀ a, (f a).isSome = true → (g a).isSome = true) :
    ∀ l : List α, (l.filterMap f).length ≤ (l.filterMap g).length := by
  intro l
  induction l with
  | nil => simp
  | cons a l ih =>
    rw [List.filterMap_cons, List.filterMap_cons]
    cases hfa : f a with
    | none =>
      cases hga : g a with
      | none => exact ih
      | some c => simpa using Nat.le_succ_of_le ih
    | some b =>
      have hg : (g a).isSome = true := h a (by rw [hfa]; rfl)
      cases hga : g a with
      | none => rw [hga] at hg; cases hg
      | some c => simpa using Nat.succ_le_succ ih

theorem neighbors_above_length_le (net : Network) (threshold : ℚ) (u : ℕ)
    (visited : List ℕ) :
    (neighbors_above net threshold u visited).length ≤ (adjacency net u).length := by
  apply length_filterMap_le_of_isSome
  intro e he
  by_cases h1 : e.u = u
  · simp [h1]
  · have hc1 : ¬ (e.u = u ∧ threshold < e.weight ∧ e.v ∉ visited) := fun hc => h1 hc.1
    rw [if_neg hc1] at he
    by_cases h2 : e.v = u ∧ threshold < e.weight ∧ e.u ∉ visited
    · simp [h1, h2.1]
    · rw [if_neg h2] at he
      cases he

theorem neighbors_above_lt (net : Network) (threshold : ℚ) (u : ℕ) (visited : List ℕ)
    (hwf : NetworkWF net) :
    ∀ x ∈ neighbors_above net threshold u visited, x < net.n_nodes := by
  intro x hx
  rcases List.mem_filterMap.mp hx with ⟨e, he, heq⟩
  by_cases h1 : e.u = u ∧ threshold < e.weight ∧ e.v ∉ visited
  · rw [if_pos h1] at heq
    cases heq
    exact (hwf e he).2
  · rw [if_neg h1] at heq
    by_cases h2 : e.v = u ∧ threshold < e.weight ∧ e.u ∉ visited
    · rw [if_pos h2] at heq
      cases heq
      exact (hwf e he).1
    · rw [if_neg h2] at heq
      cases heq

theorem potential_step (net : Network) (visited : List ℕ) (u : ℕ)
    (hu : u < net.n_nodes) (hnv : u ∉ visited) :
    ((Finset.range net.n_nodes) \ (u :: visited).toFinset).sum
        (fun w => (adjacency net w).length + 1) + ((adjacency net u).length + 1)
      = ((Finset.range net.n_nodes) \ visited.toFinset).sum
        (fun w => (adjacency net w).length + 1) := by
  have hmem : u ∈ (Finset.range net.n_nodes) \ visited.toFinset :=
    Finset.mem_sdiff.mpr ⟨Finset.mem_range.mpr hu, by simpa using hnv⟩
  rw [List.toFinset_cons, Finset.sdiff_insert]
  exact Finset.sum_erase_add _ _ hmem

theorem bfs_aux_succ_nil (net : Network) (threshold : ℚ) (fuel : ℕ)
    (visited : List ℕ) (size : ℕ) :
    bfs_aux net threshold (fuel + 1) [] visited size = some (size, visited) := rfl

theorem bfs_aux_succ_mem (net : Network) (threshold : ℚ) (fuel : ℕ) (u : ℕ)
    (rest visited : List ℕ) (size : ℕ) (h : u ∈ visited) :
    bfs_aux net threshold (fuel + 1) (u :: rest) visited size =
      bfs_aux net threshold fuel rest visited size := by
  simp [bfs_aux, h]

theorem bfs_aux_succ_not_mem (net : Network) (threshold : ℚ) (fuel : ℕ) (u : ℕ)
    (rest visited : List ℕ) (size : ℕ) (h : u ∉ visited) :
    bfs_aux net threshold (fuel + 1) (u :: rest) visited size =
      bfs_aux net threshold fuel
        (rest ++ neighbors_above net threshold u (u :: visited))
        (u :: visited) (size + 1) := by
  simp [bfs_aux, h]

theorem bfs_aux_some (net : Network) (threshold : ℚ) (hwf : NetworkWF net) :
    ∀ (fuel : ℕ) (queue visited : List ℕ) (size : ℕ),
      (∀ x ∈ queue, x < net.n_nodes) →
      bfs_potential net queue visited ≤ fuel →
      ∃ r vis, bfs_aux net threshold fuel queue visited size = some (r, vis) := by
  intro fuel
  induction fuel with
  | zero =>
    intro queue visited size _ hpot
    exfalso
    unfold bfs_potential at hpot
    omega
  | succ fuel ih =>
    intro queue visited size hq hpot
    cases queue with
    | nil => exact ⟨size, visited, bfs_aux_succ_nil net threshold fuel visited size⟩
    | cons u rest =>
      by_cases hu : u ∈ visited
      · rw [bfs_aux_succ_mem net threshold fuel u rest visited size hu]
        apply ih rest visited size (fun x hx => hq x (List.mem_cons_of_mem _ hx))
        unfold bfs_potential at hpot ⊢
        simp only [List.length_cons] at hpot
        omega
      · rw [bfs_aux_succ_not_mem net threshold fuel u rest visited size hu]
        apply ih _ _ _
        · intro x hx
          rcases List.mem_append.mp hx with hx | hx
          · exact hq x (List.mem_cons_of_mem _ hx)
          · exact neighbors_above_lt net threshold u (u :: visited) hwf x hx
        · have hlt : u < net.n_nodes := hq u (List.mem_cons_self _ _)
          have hsum := potential_step net visited u hlt hu
          have hna := neighbors_above_length_le net threshold u (u :: visited)
          unfold bfs_potential at hpot ⊢
          rw [List.length_append] at *
          simp only [List.length_cons] at hpot
          omega

theorem bfs_aux_ge (net : Network) (threshold : ℚ) :
    ∀ (fuel : ℕ) (queue visited : List ℕ) (size r : ℕ) (vis : List ℕ),
      bfs_aux net threshold fuel queue visited size = some (r, vis) → size ≤ r := by
  intro fuel
  induction fuel with
  | zero => intro queue visited size r vis h; cases h
  | succ fuel ih =>
    intro queue visited size r vis h
    cases queue with
    | nil =>
      rw [bfs_aux_succ_nil] at h
      cases h
      exact le_refl _
    | cons u rest =>
      by_cases hu : u ∈ visited
      · rw [bfs_aux_succ_mem net threshold fuel u rest visited size hu] at h
        exact ih _ _ _ _ _ h
      · rw [bfs_aux_succ_not_mem net threshold fuel u rest visited size hu] at h
        exact le_trans (Nat.le_succ _) (ih _ _ _ _ _ h)

theorem bfs_aux_le (net : Network) (threshold : ℚ) (hwf : NetworkWF net) :
    ∀ (fuel : ℕ) (queue visited : List ℕ) (size r : ℕ) (vis : List ℕ),
      (∀ x ∈ queue, x < net.n_nodes) →
      bfs_aux net threshold fuel queue visited size = some (r, vis) →
      r ≤ size + ((Finset.range net.n_nodes) \ visited.toFinset).card := by
  intro fuel
  induction fuel with
  | zero => intro queue visited size r vis _ h; cases h
  | succ fuel ih =>
    intro queue visited size r vis hq h
    cases queue with
    | nil =>
      rw [bfs_aux_succ_nil] at h
      cases h
      exact Nat.le_add_right _ _
    | cons u rest =>
      by_cases hu : u ∈ visited
      · rw [bfs_aux_succ_mem net threshold fuel u rest visited size hu] at h
        exact ih _ _ _ _ _ (fun x hx => hq x (List.mem_cons_of_mem _ hx)) h
      · rw [bfs_aux_succ_not_mem net threshold fuel u rest visited size hu] at h
        have hbound := ih _ _ _ _ _ (fun x hx => by
          rcases List.mem_append.mp hx with hx | hx
          · exact hq x (List.mem_cons_of_mem _ hx)
          · exact neighbors_above_lt net threshold u (u :: visited) hwf x hx) h
        have hmem : u ∈ (Finset.range net.n_nodes) \ visited.toFinset :=
          Finset.mem_sdiff.mpr
            ⟨Finset.mem_range.mpr (hq u (List.mem_cons_self _ _)), by simpa using hu⟩
        have hcard := Finset.card_erase_add_one hmem
        rw [List.toFinset_cons, Finset.sdiff_insert] at hbound
        omega

theorem bfs_aux_nodup (net : Network) (threshold : ℚ) :
    ∀ (fuel : ℕ) (queue visited : List ℕ) (size r : ℕ) (vis : List ℕ),
      visited.Nodup →
      bfs_aux net threshold fuel queue visited size = some (r, vis) → vis.Nodup := by
  intro fuel
  induction fuel with
  | zero => intro queue visited size r vis _ h; cases h
  | succ fuel ih =>
    intro queue visited size r vis hnd h
    cases queue with
    | nil =>
      rw [bfs_aux_succ_nil] at h
      cases h
      exact hnd
    | cons u rest =>
      by_cases hu : u ∈ visited
      · rw [bfs_aux_succ_mem net threshold fuel u rest visited size hu] at h
        exact ih _ _ _ _ _ hnd h
      · rw [bfs_aux_succ_not_mem net threshold fuel u rest visited size hu] at h
        exact ih _ _ _ _ _ (List.nodup_cons.mpr ⟨hu, hnd⟩) h

theorem bfs_aux_count (net : Network) (threshold : ℚ) :
    ∀ (fuel : ℕ) (queue visited : List ℕ) (size r : ℕ) (vis : List ℕ),
      bfs_aux net threshold fuel queue visited size = some (r, vis) →
      r + visited.length = size + vis.length := by
  intro fuel
  induction fuel with
  | zero => intro queue visited size r vis h; cases h
  | succ fuel ih =>
    intro queue visited size r vis h
    cases queue with
    | nil =>
      rw [bfs_aux_succ_nil] at h
      cases h
      omega
    | cons u rest =>
      by_cases hu : u ∈ visited
      · rw [bfs_aux_succ_mem net threshold fuel u rest visited size hu] at h
        exact ih _ _ _ _ _ h
      · rw [bfs_aux_succ_not_mem net threshold fuel u rest visited size hu] at h
        have := ih _ _ _ _ _ h
        simp only [List.length_cons] at this
        omega

theorem sum_adjacency_aux_le (N : ℕ) :
    ∀ es : List Edge,
      (Finset.range N).sum (fun u => (es.filterMap (fun e =>
        if e.u = u then some e.v else if e.v = u then some e.u else none)).length)
      ≤ 2 * es.length := by
  intro es
  induction es with
  | nil => simp
  | cons e es ih =>
    have hsplit : ∀ u : ℕ,
        ((e :: es).filterMap (fun e2 =>
          if e2.u = u then some e2.v else if e2.v = u then some e2.u else none)).length
        = (if e.u = u ∨ e.v = u then 1 else 0) + (es.filterMap (fun e2 =>
          if e2.u = u then some e2.v else if e2.v = u then some e2.u else none)).length := by
      intro u
      rw [List.filterMap_cons]
      by_cases h1 : e.u = u
      · simp [h1]
        omega
      · by_cases h2 : e.v = u
        · simp [h1, h2]
          omega
        · simp [h1, h2]
    have hpt : ∀ u : ℕ, (if e.u = u ∨ e.v = u then (1 : ℕ) else 0) ≤
        (if e.u = u then 1 else 0) + (if e.v = u then 1 else 0) := by
      intro u
      by_cases ha : e.u = u
      · simp [ha]
      · by_cases hb : e.v = u <;> simp [ha, hb]
    have hind : (Finset.range N).sum (fun u => if e.u = u ∨ e.v = u then (1 : ℕ) else 0) ≤ 2 := by
      calc (Finset.range N).sum (fun u => if e.u = u ∨ e.v = u then (1 : ℕ) else 0)
          ≤ (Finset.range N).sum (fun u =>
            (if e.u = u then (1 : ℕ) else 0) + (if e.v = u then 1 else 0)) :=
            Finset.sum_le_sum (fun u _ => hpt u)
        _ = (Finset.range N).sum (fun u => if e.u = u then (1 : ℕ) else 0) +
            (Finset.range N).sum (fun u => if e.v = u then (1 : ℕ) else 0) :=
            Finset.sum_add_distrib
        _ ≤ 2 := by
            rw [Finset.sum_ite_eq, Finset.sum_ite_eq]
            split_ifs <;> omega
    calc (Finset.range N).sum (fun u => ((e :: es).filterMap (fun e2 =>
            if e2.u = u then some e2.v else if e2.v = u then some e2.u else none)).length)
        = (Finset.range N).sum (fun u => (if e.u = u ∨ e.v = u then 1 else 0) +
            (es.filterMap (fun e2 =>
              if e2.u = u then some e2.v else if e2.v = u then some e2.u else none)).length) := by
          exact Finset.sum_congr rfl (fun u _ => hsplit u)
      _ = (Finset.range N).sum (fun u => if e.u = u ∨ e.v = u then (1 : ℕ) else 0) +
          (Finset.range N).sum (fun u => (es.filterMap (fun e2 =>
            if e2.u = u then some e2.v else if e2.v = u then some e2.u else none)).length) :=
          Finset.sum_add_distrib
      _ ≤ 2 + 2 * es.length := Nat.add_le_add hind ih
      _ = 2 * (e :: es).length := by simp [List.length_cons]; ring

theorem sum_adjacency_le (net : Network) :
    (Finset.range net.n_nodes).sum (fun u => (adjacency net u).length)
      ≤ 2 * net.edges.length := by
  unfold adjacency
  exact sum_adjacency_aux_le net.n_nodes net.edges

/-- The fixed fuel budget of the avalanche_size wrapper covers the BFS
potential of any well-formed start configuration, so the fuel-exhaustion
fallback of the embedding is dead code. -/
theorem avalanche_size_defined (net : Network) (source : ℕ) (threshold : ℚ)
    (hwf : NetworkWF net) (hsrc : source < net.n_nodes) :
    ∃ r vis, bfs_aux net threshold (bfs_fuel net) [source] [] 0 = some (r, vis) := by
  apply bfs_aux_some net threshold hwf
  · intro x hx
    rw [List.mem_singleton] at hx
    subst hx
    exact hsrc
  · unfold bfs_potential bfs_fuel
    rw [List.toFinset_nil, Finset.sdiff_empty]
    have hsum : (Finset.range net.n_nodes).sum (fun u => (adjacency net u).length + 1)
        = (Finset.range net.n_nodes).sum (fun u => (adjacency net u).length) + net.n_nodes := by
      rw [Finset.sum_add_distrib, Finset.sum_const, Finset.card_range, smul_eq_mul, mul_one]
    rw [hsum]
    have := sum_adjacency_le net
    simp only [List.length_singleton]
    omega

theorem neighbors_above_no_propagation (net : Network) (threshold : ℚ)
    (h : ∀ e ∈ net.edges, e.weight ≤ threshold) (u : ℕ) (visited : List ℕ) :
    neighbors_above net threshold u visited = [] := by
  unfold neighbors_above
  rw [List.filterMap_eq_nil_iff]
  intro e he
  have hw : ¬ threshold < e.weight := not_lt.mpr (h e he)
  rw [if_neg (fun hc => hw hc.2.1), if_neg (fun hc => hw hc.2.1)]

theorem avalanche_size_no_propagation (net : Network) (source : ℕ) (threshold : ℚ)
    (h : ∀ e ∈ net.edges, e.weight ≤ threshold) :
    avalanche_size net source threshold = 1 := by
  unfold avalanche_size
  rw [show bfs_fuel net = (2 * net.edges.length + net.n_nodes + 1) + 1 from rfl,
    bfs_aux_succ_not_mem net threshold _ source [] [] 0 (List.not_mem_nil source),
    neighbors_above_no_propagation net threshold h, List.nil_append,
    show 2 * net.edges.length + net.n_nodes + 1 = (2 * net.edges.length + net.n_nodes) + 1 from rfl,
    bfs_aux_succ_nil]

theorem sim_masks_go_length (rng : RandomSource) (net : Network) (prob : ℕ → ℚ)
    (threshold : ℚ) (refractory : Bool) :
    ∀ (m : ℕ) (last : List Bool) (st : rng.State),
      (sim_masks_go rng net prob threshold refractory m last st).1.length = m := by
  intro m
  induction m with
  | zero => intro last st; rfl
  | succ m ih =>
    intro last st
    simp only [sim_masks_go, List.length_cons, ih]

/-- C10: on every well-formed network and every existing seed node, the
BFS cascade of avalanche_size terminates: some fuel budget (one unit per
loop iteration) completes the loop with an exhausted queue, every node is
visited at most once (the final visited list is duplicate-free and the
returned size is exactly its length), and the returned avalanche size is
between 1 and the number of nodes. -/
theorem claim_C10 (net : Network) (source : ℕ) (threshold : ℚ)
    (hwf : NetworkWF net) (hsrc : source < net.n_nodes) :
    ∃ fuel r vis, bfs_aux net threshold fuel [source] [] 0 = some (r, vis) ∧
      1 ≤ r ∧ r ≤ net.n_nodes ∧ vis.Nodup ∧ r = vis.length := by
  obtain ⟨r, vis, hrun⟩ := avalanche_size_defined net source threshold hwf hsrc
  refine ⟨bfs_fuel net, r, vis, hrun, ?_, ?_, ?_, ?_⟩
  · have h2 : bfs_fuel net = (2 * net.edges.length + net.n_nodes + 1) + 1 := rfl
    rw [h2, bfs_aux_succ_not_mem net threshold _ source [] [] 0 (List.not_mem_nil source)] at hrun
    exact bfs_aux_ge net threshold _ _ _ _ _ _ hrun
  · have := bfs_aux_le net threshold hwf _ _ _ _ _ _
      (fun x hx => by rw [List.mem_singleton] at hx; subst hx; exact hsrc) hrun
    rw [List.toFinset_nil, Finset.sdiff_empty, Finset.card_range] at this
    omega
  · exact bfs_aux_nodup net threshold _ _ _ _ _ _ List.nodup_nil hrun
  · have := bfs_aux_count net threshold _ _ _ _ _ _ hrun
    simp only [List.length_nil] at this
    omega

/-- C7 (amended): neither cascade mode validates its threshold (the source
contains no InvalidThreshold and no raise at all in either function).  For
every threshold, non-positive thresholds included, the single-shot BFS
cascade completes normally (some fuel budget exhausts the work queue with
an ordinary result), a cascade that never propagates (no edge weight above
the threshold) returns the valid small size 1, and the stepped stochastic
cascade always returns a full-length trace of n_bins counts.  The claimed
InvalidThreshold error at non-positive thresholds is refuted by
claim_C7_counterexample. -/
theorem claim_C7 (net : Network) (source : ℕ) (threshold : ℚ)
    (hwf : NetworkWF net) (hsrc : source < net.n_nodes) :
    (∃ fuel r vis, bfs_aux net threshold fuel [source] [] 0 = some (r, vis)) ∧
    ((∀ e ∈ net.edges, e.weight ≤ threshold) →
      avalanche_size net source threshold = 1) ∧
    (∀ (rng : RandomSource) (ws : WSModel) (N k : ℕ) (p : ℚ) (n_bins : ℕ)
      (prob_fire base_threshold : ℚ) (bias_nodes : Option (List ℕ))
      (bias_strength : ℚ) (seed : Option ℕ) (refractory : Bool) (st : rng.State),
      (simulate_time_bins rng ws N k p n_bins prob_fire base_threshold
        bias_nodes bias_strength seed refractory st).1.length = n_bins) := by
  refine ⟨?_, avalanche_size_no_propagation net source threshold, ?_⟩
  · obtain ⟨r, vis, hrun⟩ := avalanche_size_defined net source threshold hwf hsrc
    exact ⟨bfs_fuel net, r, vis, hrun⟩
  · intro rng ws N k p n_bins prob_fire base_threshold bias_nodes bias_strength seed refractory st
    unfold simulate_time_bins simulate_time_bins_masks
    rw [List.length_map]
    exact sim_masks_go_length rng _ _ _ _ n_bins _ _

/-- C2: the network builder is deterministic in its seed: when a seed is
given, np.random.seed replaces the global generator state and the
Watts-Strogatz construction receives the same seed, so two calls with
identical parameters and identical seed produce identical networks (the
same edge list with the same weights) from any two prior generator
states. -/
theorem claim_C2 (rng : RandomSource) (ws : WSModel) (N k : ℕ) (p : ℚ) (s : ℕ)
    (st1 st2 : rng.State) :
    create_network rng ws N k p (some s) st1 = create_network rng ws N k p (some s) st2 := rfl

theorem sim_step_refractory (rng : RandomSource) (net : Network) (prob : ℕ → ℚ)
    (threshold : ℚ) (last : List Bool) (st : rng.State) (node : ℕ)
    (hlast : last.getD node false = true) :
    (sim_step rng net prob threshold true last st).1.getD node false = false := by
  unfold sim_step
  by_cases hn : node < net.n_nodes
  · have hlen : node < ((List.range net.n_nodes).map (fun i =>
        let spontaneous := decide ((rand_list rng net.n_nodes st).1.getD i 1 < prob i)
        let neighbor_hit := net.edges.any (fun e =>
          (last.getD e.u false && decide (threshold < e.weight) && decide (e.v = i)) ||
          (last.getD e.v false && decide (threshold < e.weight) && decide (e.u = i)))
        (spontaneous || neighbor_hit) && (!true || !(last.getD i false)))).length := by
      rw [List.length_map, List.length_range]
      exact hn
    rw [List.getD_eq_getElem _ _ hlen, List.getElem_map, List.getElem_range]
    have hlast2 : last[node]?.getD false = true := by
      rwa [List.getD_eq_getElem?_getD] at hlast
    simp [hlast2]
  · apply List.getD_eq_default
    rw [List.length_map, List.length_range]
    omega

theorem sim_masks_go_refractory (rng : RandomSource) (net : Network) (prob : ℕ → ℚ)
    (threshold : ℚ) :
    ∀ (m : ℕ) (last : List Bool) (st : rng.State) (t : ℕ) (a b : List Bool),
      (sim_masks_go rng net prob threshold true m last st).1.get? t = some a →
      (sim_masks_go rng net prob threshold true m last st).1.get? (t + 1) = some b →
      ∀ node, a.getD node false = true → b.getD node false = false := by
  intro m
  induction m with
  | zero =>
    intro last st t a b ha _
    simp [sim_masks_go] at ha
  | succ m ih =>
    intro last st t a b ha hb node hnode
    simp only [sim_masks_go] at ha hb
    cases t with
    | zero =>
      rw [List.get?_cons_zero] at ha
      rw [List.get?_cons_succ] at hb
      injection ha with ha
      subst ha
      cases m with
      | zero => simp [sim_masks_go] at hb
      | succ m2 =>
        simp only [sim_masks_go, List.get?_cons_zero] at hb
        injection hb with hb
        subst hb
        exact sim_step_refractory rng net prob threshold _ _ node hnode
    | succ t =>
      rw [List.get?_cons_succ] at ha hb
      exact ih _ _ t a b ha hb node hnode

/-- C9: in the stepped stochastic cascade with refractory mode enabled, no
node is active in two consecutive steps: whenever a node is active in the
mask of some step, it is inactive in the mask of the following step (the
new mask is conjoined with the negation of the previous one). -/
theorem claim_C9 (rng : RandomSource) (ws : WSModel) (N k : ℕ) (p : ℚ) (n_bins : ℕ)
    (prob_fire base_threshold : ℚ) (bias_nodes : Option (List ℕ)) (bias_strength : ℚ)
    (seed : Option ℕ) (st : rng.State) (t : ℕ) (m1 m2 : List Bool) (node : ℕ)
    (h1 : (simulate_time_bins_masks rng ws N k p n_bins prob_fire base_threshold
      bias_nodes bias_strength seed true st).1.get? t = some m1)
    (h2 : (simulate_time_bins_masks rng ws N k p n_bins prob_fire base_threshold
      bias_nodes bias_strength seed true st).1.get? (t + 1) = some m2)
    (hact : m1.getD node false = true) :
    m2.getD node false = false := by
  unfold simulate_time_bins_masks at h1 h2
  exact sim_masks_go_refractory rng _ _ _ n_bins _ _ t m1 m2 h1 h2 node hact

theorem monte_carlo_go_target (rng : RandomSource) (ws : WSModel)
    (N_nodes n_seeds_per_run : ℕ)
    (threshold N_tubulins base_bias_fraction bias_strength : ℚ) :
    ∀ (runs : List ℕ) (st : rng.State) (tr : TrialRecord),
      tr ∈ monte_carlo_go rng ws N_nodes n_seeds_per_run threshold N_tubulins
        base_bias_fraction bias_strength runs st →
      (tr.target_mean = if tr.sizes_qp = [] then 0 else pymean_nat tr.sizes_qp) ∧
      ∃ (net2 : Network) (sd : ℕ) (st2 : rng.State),
        tr.sizes_m =
          (run_mimic rng net2 n_seeds_per_run threshold sd tr.target_mean (15/100) st2).1 := by
  intro runs
  induction runs with
  | nil => intro st tr htr; simp [monte_carlo_go] at htr
  | cons r rs ih =>
    intro st tr htr
    simp only [monte_carlo_go, List.mem_cons] at htr
    rcases htr with htr | htr
    · subst htr
      exact ⟨rfl, ⟨_, _, _, rfl⟩⟩
    · exact ih _ tr htr

/-- C1: in every trial of the four-condition Monte-Carlo loop of
quantum_avalanche_v3.py, the calibration target mean handed to the mimic
condition is exactly the mean of the avalanche sizes produced by the
quantum-positive condition of that same trial (computed earlier in the
trial body; the zero fallback only covers an empty batch, which the
emptiness guard of the source handles identically), and the recorded mimic
batch is exactly the output of run_mimic called with that same-trial
target; the target is a function of the trial record alone, so no
cross-trial average is involved. -/
theorem claim_C1 (rng : RandomSource) (ws : WSModel) (n_runs N_nodes n_seeds_per_run : ℕ)
    (threshold N_tubulins base_bias_fraction bias_strength : ℚ) (st : rng.State)
    (tr : TrialRecord)
    (htr : tr ∈ monte_carlo rng ws n_runs N_nodes n_seeds_per_run threshold N_tubulins
      base_bias_fraction bias_strength st) :
    (tr.target_mean = if tr.sizes_qp = [] then 0 else pymean_nat tr.sizes_qp) ∧
    ∃ (net2 : Network) (sd : ℕ) (st2 : rng.State),
      tr.sizes_m =
        (run_mimic rng net2 n_seeds_per_run threshold sd tr.target_mean (15/100) st2).1 :=
  monte_carlo_go_target rng ws N_nodes n_seeds_per_run threshold N_tubulins
    base_bias_fraction bias_strength (List.range n_runs) st tr htr

/-- A small concrete linear congruential generator used to instantiate the
abstract random source in witnesses and counterexamples. -/
def lcg_next (st : ℕ) : ℕ := (st * 1664525 + 1013904223) % 4294967296

/-- Concrete random source for witnesses: the state is a natural number,
reseeding stores the seed, and draws are derived from the low decimal
digits of the state. -/
def lcg : RandomSource where
  State := ℕ
  seedOf := fun s => s
  unif := fun st => (((st % 1000 : ℕ) : ℚ) / 1000, lcg_next st)
  normal := fun mu sigma st =>
    (mu + sigma * ((((st % 1000 : ℕ) : ℚ) / 1000) - 1/2), lcg_next st)

/-- Concrete degenerate Watts-Strogatz model producing no edges, for
witnesses whose claims do not depend on the graph shape. -/
def ws_nil : WSModel := fun _ _ _ _ => []

/-- Concrete 15-edge path network with unit weights. -/
def net15 : Network :=
  { n_nodes := 16,
    edges := (List.range 15).map (fun i =>
      { u := i, v := i + 1, weight := 1, original := 1 }) }

/-- Concrete 3-edge path network with unit weights. -/
def net3 : Network :=
  { n_nodes := 4,
    edges := [{ u := 0, v := 1, weight := 1, original := 1 },
              { u := 1, v := 2, weight := 1, original := 1 },
              { u := 2, v := 3, weight := 1, original := 1 }] }

/-- Concrete 2-node network with a single zero-weight edge. -/
def net1 : Network :=
  { n_nodes := 2, edges := [{ u := 0, v := 1, weight := 0, original := 0 }] }

unseal Rat.add Rat.mul Rat.inv Rat.sub in
/-- C3 counterexample: on the 15-edge network with fraction 0.1, the v2
edge-bias apply operation changes exactly one edge weight, whereas
round(0.1 * 15) = round(1.5) = 2; so the operation does not select
round(fraction * E) edges as claimed (the source truncates with int()
instead of rounding). -/
theorem claim_C3_counterexample :
    ((List.range net15.edges.length).filter (fun j =>
      decide ((V2.apply_bias lcg net15 (1/10) 1 none (0 : ℕ)).1.edges[j]? ≠ net15.edges[j]?))).length
      = 1 ∧
    pyround ((net15.edges.length : ℚ) * (1/10)) = 2 ∧
    ((List.range net15.edges.length).filter (fun j =>
      decide ((V2.apply_bias lcg net15 (1/10) 1 none (0 : ℕ)).1.edges[j]? ≠ net15.edges[j]?))).length
      ≠ (pyround ((net15.edges.length : ℚ) * (1/10))).toNat := by
  refine ⟨by decide, by decide, by decide⟩

theorem claim_C3_witness :
    bias_selection_spec net15.edges (V2.apply_bias lcg net15 (1/2) 1 none (0 : ℕ)).1.edges 1
      (pytrunc ((net15.edges.length : ℚ) * (1/2))).toNat ∧
    bias_selection_spec net15.edges (V3.apply_bias lcg net15 (1/2) 1 none (0 : ℕ)).1.edges 1
      (max 1 (pytrunc ((net15.edges.length : ℚ) * (1/2))).toNat) :=
  claim_C3 lcg net15 (1/2) 1 none (0 : ℕ) (by norm_num) (by decide)

unseal Rat.add Rat.mul Rat.inv Rat.sub in
/-- C8: when fraction * E truncates to zero (here 3 edges at fraction
0.1), the v2 edge-bias apply operation leaves every edge weight unchanged
but emits no warning at all (its warning channel, which collects every
warning the source emits, is empty): the no-op is silent, contradicting
the claim that a warning is emitted.  The v3 variant diverges in the other
direction and biases max(1, 0) = 1 edge (see claim_C3). -/
theorem claim_C8 :
    (pytrunc ((net3.edges.length : ℚ) * (1/10))).toNat = 0 ∧
    (V2.apply_bias lcg net3 (1/10) (1/2) none (0 : ℕ)).1 = net3 ∧
    (V2.apply_bias lcg net3 (1/10) (1/2) none (0 : ℕ)).2.1 = ([] : List String) := by
  refine ⟨by decide, by decide, by decide⟩

unseal Rat.add Rat.mul Rat.inv Rat.sub in
/-- C7 counterexample: at the non-positive threshold 0 both cascade modes
complete normally instead of raising: the BFS cascade on net1 returns the
ordinary size 1, and the stepped cascade returns a full 3-bin trace; the
source defines no InvalidThreshold and contains no raise in either
function. -/
theorem claim_C7_counterexample :
    ((0 : ℚ) ≤ 0) ∧
    avalanche_size net1 0 0 = 1 ∧
    (simulate_time_bins lcg ws_nil 2 2 (1/10) 3 (1/2) 0 none 0 (some 1) true (0 : ℕ)).1.length = 3 := by
  refine ⟨le_refl 0, by decide, by decide⟩

theorem claim_C7_witness :
    (∃ fuel r vis, bfs_aux net1 2 fuel [0] [] 0 = some (r, vis)) ∧
    (simulate_time_bins lcg ws_nil 2 2 (1/10) 4 (1/2) 1 none 0 (some 1) true (0 : ℕ)).1.length = 4 :=
  ⟨(claim_C7 net1 0 2 (by decide) (by decide)).1,
   (claim_C7 net1 0 2 (by decide) (by decide)).2.2 lcg ws_nil 2 2 (1/10) 4 (1/2) 1
     none 0 (some 1) true (0 : ℕ)⟩

theorem claim_C10_witness :
    ∃ fuel r vis, bfs_aux net1 (5/4) fuel [0] [] 0 = some (r, vis) ∧
      1 ≤ r ∧ r ≤ net1.n_nodes ∧ vis.Nodup ∧ r = vis.length :=
  claim_C10 net1 0 (5/4) (by decide) (by decide)

unseal Rat.add Rat.mul Rat.inv Rat.sub in
theorem claim_C9_witness : ([false] : List Bool).getD 0 false = false :=
  claim_C9 lcg ws_nil 1 0 0 2 1 1 none 0 (some 0) (0 : ℕ) 0 [true] [false] 0
    (by decide) (by decide) (by decide)

theorem claim_C1_witness :
    ((monte_carlo_trial lcg ws_nil 1 1 1 1 (1/10) (1/20) 0 (0 : ℕ)).1.target_mean =
      if (monte_carlo_trial lcg ws_nil 1 1 1 1 (1/10) (1/20) 0 (0 : ℕ)).1.sizes_qp = [] then 0
      else pymean_nat (monte_carlo_trial lcg ws_nil 1 1 1 1 (1/10) (1/20) 0 (0 : ℕ)).1.sizes_qp) ∧
    ∃ (net2 : Network) (sd : ℕ) (st2 : lcg.State),
      (monte_carlo_trial lcg ws_nil 1 1 1 1 (1/10) (1/20) 0 (0 : ℕ)).1.sizes_m =
        (run_mimic lcg net2 1 1 sd
          (monte_carlo_trial lcg ws_nil 1 1 1 1 (1/10) (1/20) 0 (0 : ℕ)).1.target_mean
          (15/100) st2).1 :=
  claim_C1 lcg ws_nil 1 1 1 1 1 (1/10) (1/20) (0 : ℕ)
    (monte_carlo_trial lcg ws_nil 1 1 1 1 (1/10) (1/20) 0 (0 : ℕ)).1
    (by simp [monte_carlo, monte_carlo_go, List.range_succ])
